import Mathlib

/-!
Verification of the papyrus inline-tag lexer (`src/papyrus-lib/src/lib.rs`).

The Rust library lexes free text interspersed with bracketed references such
as `[user:42]`.  This file gives a shallow embedding of the canonical,
position-tracked implementation: strings are `List Char`, the `Peekable`
character iterator is the list of remaining characters, and the `u16` line
counter is a `Nat` kept below 2 ^ 16 by wrapping addition (release-profile
semantics of `u16` overflow).

The regular-expression engine is external to the repository; the two
hard-coded patterns `user:\s*(?P<id>\d+)` and `article:\s*(?P<id>\d+)` are
embedded directly: a leftmost scan for the literal `user:` (resp.
`article:`) followed by a greedy whitespace run and a greedy, non-empty
digit run, which is the named capture.  `\d` and `\s` are modelled on the
ASCII range (every concrete input below is ASCII).
-/

deriving instance DecidableEq for Except

namespace Papyrus

/-- `TagParseErr` from the source.  `CaptureParseErr` carries a
`ParseIntError` in Rust; the payload is abstracted since the code never
inspects it.  `NoCaptures` is declared in the source and never produced. -/
inductive TagParseErr where
  | NoCaptures : TagParseErr
  | CaptureNotFound : TagParseErr
  | CaptureParseErr : TagParseErr
  | UnknownTag : List Char → TagParseErr
deriving DecidableEq

/-- `Tag` from the source: `User(usize)` or `Article(usize)`. -/
inductive Tag where
  | User : Nat → Tag
  | Article : Nat → Tag
deriving DecidableEq

/-- `Token` from the source: a text run or a parsed tag. -/
inductive Token where
  | Text : List Char → Token
  | Tag : Tag → Token
deriving DecidableEq

/-- `Position` from the source: a single `u16` line field. -/
structure Position where
  line : Nat
deriving DecidableEq

/-- `TokenizeErr` from the source: a tag-parse error with the position of
the offending call. -/
inductive TokenizeErr where
  | TagErr : Position → TagParseErr → TokenizeErr
deriving DecidableEq

/-- usize bound: the target is 64-bit. -/
def USIZE : Nat := 2 ^ 64

/-- ASCII whitespace, the characters the pattern atom matches on the
ASCII range: space, tab, line feed, vertical tab, form feed, carriage
return. -/
def isWs (c : Char) : Bool :=
  c.toNat = 32 || c.toNat = 9 || c.toNat = 10 || c.toNat = 11 ||
    c.toNat = 12 || c.toNat = 13

/-- ASCII decimal digit, the characters the digit pattern atom matches on
the ASCII range. -/
def isDigitC (c : Char) : Bool :=
  48 ≤ c.toNat && c.toNat ≤ 57

/-- Strip a literal from the front of `s`; `none` when `s` does not start
with it. -/
def dropLit : List Char → List Char → Option (List Char)
  | [], s => some s
  | _ :: _, [] => none
  | p :: ps, c :: cs => if p = c then dropLit ps cs else none

/-- Try the pattern (literal `pat`, then greedy whitespace, then a greedy
non-empty digit run — the named capture) anchored at the front of `s`;
return the capture. -/
def matchCapture (pat : List Char) (s : List Char) : Option (List Char) :=
  match dropLit pat s with
  | none => none
  | some r =>
    let ds := (r.dropWhile isWs).takeWhile isDigitC
    if ds = [] then none else some ds

/-- `Regex::captures`: scan left to right for the first position where the
pattern matches, returning the digit capture. -/
def reCaptures (pat : List Char) : List Char → Option (List Char)
  | [] => matchCapture pat []
  | c :: cs =>
    match matchCapture pat (c :: cs) with
    | some ds => some ds
    | none => reCaptures pat cs

/-- Value of a digit string, most significant first (the accumulator loop
of `usize::from_str`). -/
def digitsVal (s : List Char) : Nat :=
  s.foldl (fun a c => a * 10 + (c.toNat - 48)) 0

/-- `str::parse::<usize>` restricted to the strings the captures produce
(non-empty all-digit runs; sign handling is never exercised).  Fails on
the empty string, on a non-digit, or when the value overflows `usize`. -/
def parseUsize (s : List Char) : Option Nat :=
  if s = [] then none
  else if s.all isDigitC then
    (if digitsVal s < USIZE then some (digitsVal s) else none)
  else none

/-- `<Tag as FromStr>::from_str`: try the user pattern, then the article
pattern; on a match, parse the digit capture into `usize`.  When neither
matches, the error payload is the body wrapped in square brackets
(`format!` with a bracketed template in the source). -/
def tagFromStr (s : List Char) : Except TagParseErr Tag :=
  match reCaptures "user:".toList s with
  | some ds =>
    match parseUsize ds with
    | some n => Except.ok (Tag.User n)
    | none => Except.error TagParseErr.CaptureParseErr
  | none =>
    match reCaptures "article:".toList s with
    | some ds =>
      match parseUsize ds with
      | some n => Except.ok (Tag.Article n)
      | none => Except.error TagParseErr.CaptureParseErr
    | none => Except.error (TagParseErr.UnknownTag ('[' :: (s ++ [']'])))

/-- The lexer state: the remaining characters of the `Peekable` iterator
and the current `Position` line (a `u16` kept below 2 ^ 16). -/
structure LexState where
  rest : List Char
  line : Nat
deriving DecidableEq

/-- `take_while(|p| *p != ']')` on the character iterator: the collected
body and the iterator afterwards.  The terminating bracket, when present,
is consumed and discarded. -/
def takeWhileNotRB : List Char → List Char × List Char
  | [] => ([], [])
  | c :: cs =>
    if c = ']' then ([], cs)
    else
      let q := takeWhileNotRB cs
      (c :: q.1, q.2)

/-- The text-run loop: keep consuming while a peeked character exists and
is not an opening bracket.  Returns the consumed run and the iterator
afterwards. -/
def textRun : List Char → List Char × List Char
  | [] => ([], [])
  | c :: cs =>
    if c = '[' then ([], c :: cs)
    else
      let q := textRun cs
      (c :: q.1, q.2)

/-- The item built in the bracket branch of `next`: `parse::<Tag>()`
followed by `map_err` (attaching the position) and `map Token::Tag`. -/
def tagItem (l : Nat) (body : List Char) : Except TokenizeErr Token :=
  match tagFromStr body with
  | Except.ok t => Except.ok (Token.Tag t)
  | Except.error e => Except.error (TokenizeErr.TagErr ⟨l⟩ e)

/-- `<TokenIter as Iterator>::next`: `none` at end of input, otherwise one
token or error plus the successor state.  Only the first character read by
a call goes through the newline check; `u16` addition wraps. -/
def lexNext (st : LexState) : Option ((Except TokenizeErr Token) × LexState) :=
  match st.rest with
  | [] => none
  | c :: cs =>
    let l2 := if c = '\n' then (st.line + 1) % 65536 else st.line
    if c = '[' then
      let p := takeWhileNotRB cs
      some (tagItem l2 p.1, ⟨p.2, l2⟩)
    else
      let q := textRun cs
      some (Except.ok (Token.Text (c :: q.1)), ⟨q.2, l2⟩)

/-- Drive the iterator with explicit fuel; each produced item consumes at
least one character, so `st.rest.length` fuel is always enough. -/
def lexList (fuel : Nat) (st : LexState) : List (Except TokenizeErr Token) :=
  match fuel with
  | 0 => []
  | f + 1 =>
    match lexNext st with
    | none => []
    | some p => p.1 :: lexList f p.2

/-- `TokenIter::new(s).collect()`: lex a whole input starting at line 1. -/
def lexString (s : List Char) : List (Except TokenizeErr Token) :=
  lexList s.length ⟨s, 1⟩

/-- The errors among a list of lexed items, in order. -/
def errorsOf (items : List (Except TokenizeErr Token)) : List TokenizeErr :=
  items.filterMap fun i =>
    match i with
    | Except.error e => some e
    | Except.ok _ => none

/-- One call to `next`, keeping only the state (identity once the input is
exhausted). -/
def step1 (st : LexState) : LexState :=
  match lexNext st with
  | none => st
  | some p => p.2

/-- `n` successive calls to `next`. -/
def stepN : Nat → LexState → LexState
  | 0, st => st
  | n + 1, st => stepN n (step1 st)

/-- How many of the next `n` calls to `next` read a newline as their first
character (the only newlines the lexer counts). -/
def initNL : Nat → LexState → Nat
  | 0, _ => 0
  | n + 1, st =>
    (if st.rest.head? = some '\n' then 1 else 0) + initNL n (step1 st)

/-- `n` copies of the four-character block consisting of an unknown tag
and a following newline. -/
def repBlock : Nat → List Char
  | 0 => []
  | n + 1 => '[' :: 'x' :: ']' :: '\n' :: repBlock n

/-- `Iterator::next` on the character iterator, as the `Option` the
`unwrap` in the text-run loop is applied to. -/
def iterNextOpt : List Char → Option (Char × List Char)
  | [] => none
  | c :: cs => some (c, cs)

/-- The text-run loop with the `unwrap` made explicit: `none` models the
aborting branch of `unwrap`.  After a successful peek the iterator is
`c :: cs`, so the advanced iterator inside the loop is `cs`. -/
def textRunChecked : List Char → Option (List Char × List Char)
  | [] => some ([], [])
  | c :: cs =>
    if c = '[' then some ([], c :: cs)
    else
      match iterNextOpt (c :: cs) with
      | none => none
      | some p =>
        match textRunChecked cs with
        | none => none
        | some q => some (p.1 :: q.1, q.2)

/-- `next` with the abort possibility made explicit: the outer `none`
models an aborting call, `some none` the normal end-of-input return. -/
def lexNextChecked (st : LexState) :
    Option (Option ((Except TokenizeErr Token) × LexState)) :=
  match st.rest with
  | [] => some none
  | c :: cs =>
    let l2 := if c = '\n' then (st.line + 1) % 65536 else st.line
    if c = '[' then
      let p := takeWhileNotRB cs
      some (some (tagItem l2 p.1, ⟨p.2, l2⟩))
    else
      match textRunChecked cs with
      | none => none
      | some q => some (some (Except.ok (Token.Text (c :: q.1)), ⟨q.2, l2⟩))

/-- The ASCII character of one decimal digit. -/
def digChar (d : Nat) : Char :=
  match d with
  | 0 => '0'
  | 1 => '1'
  | 2 => '2'
  | 3 => '3'
  | 4 => '4'
  | 5 => '5'
  | 6 => '6'
  | 7 => '7'
  | 8 => '8'
  | 9 => '9'
  | _ => '0'

/-- The decimal rendering of a natural number, most significant digit
first (how the specification writes the identifier `N` inside a tag). -/
def natToDecimal (n : Nat) : List Char :=
  if n = 0 then ['0'] else ((Nat.digits 10 n).map digChar).reverse

/-! ### Character facts -/

theorem digit_not_ws (c : Char) (h : isDigitC c = true) : isWs c = false := by
  simp only [isDigitC, Bool.and_eq_true, decide_eq_true_eq] at h
  simp only [isWs, Bool.or_eq_false_iff, decide_eq_false_iff_not]
  omega

theorem digit_ne_rb (c : Char) (h : isDigitC c = true) : c ≠ ']' := by
  intro h'
  rw [h'] at h
  exact absurd h (by decide)

theorem digit_ne_u (c : Char) (h : isDigitC c = true) : c ≠ 'u' := by
  intro h'
  rw [h'] at h
  exact absurd h (by decide)

theorem ws_ne_u (c : Char) (h : isWs c = true) : c ≠ 'u' := by
  intro h'
  rw [h'] at h
  exact absurd h (by decide)

/-! ### Pattern-matching lemmas -/

theorem dropLit_append (p r : List Char) : dropLit p (p ++ r) = some r := by
  induction p with
  | nil => rfl
  | cons c cs ih => simp [dropLit, ih]

theorem dropWhile_all_append (p : Char → Bool) (ws t : List Char)
    (h : ∀ c ∈ ws, p c = true) : List.dropWhile p (ws ++ t) = List.dropWhile p t := by
  induction ws with
  | nil => rfl
  | cons c cs ih =>
    have hc : p c = true := h c (List.mem_cons_self c cs)
    simp only [List.cons_append, List.dropWhile_cons, hc, if_true]
    exact ih fun d hd => h d (List.mem_cons_of_mem c hd)

theorem takeWhile_all (p : Char → Bool) (ds : List Char)
    (h : ∀ c ∈ ds, p c = true) : ds.takeWhile p = ds := by
  induction ds with
  | nil => rfl
  | cons c cs ih =>
    have hc : p c = true := h c (List.mem_cons_self c cs)
    simp only [List.takeWhile_cons, hc, if_true]
    rw [ih fun d hd => h d (List.mem_cons_of_mem c hd)]

theorem matchCapture_eq (pat ws ds : List Char)
    (hws : ∀ c ∈ ws, isWs c = true) (hne : ds ≠ [])
    (hds : ∀ c ∈ ds, isDigitC c = true) :
    matchCapture pat (pat ++ ws ++ ds) = some ds := by
  have hdrop : List.dropWhile isWs (ws ++ ds) = ds := by
    rw [dropWhile_all_append isWs ws ds hws]
    cases ds with
    | nil => rfl
    | cons d t =>
      have : isWs d = false :=
        digit_not_ws d (hds d (List.mem_cons_self d t))
      simp [List.dropWhile_cons, this]
  rw [List.append_assoc]
  simp only [matchCapture, dropLit_append]
  rw [hdrop, takeWhile_all isDigitC ds hds]
  simp [hne]

theorem reCaptures_of_matchCapture (pat s ds : List Char)
    (h : matchCapture pat s = some ds) : reCaptures pat s = some ds := by
  cases s with
  | nil => simpa [reCaptures] using h
  | cons c cs => simp [reCaptures, h]

theorem reCaptures_none (p0 : Char) (pr s : List Char)
    (h : ∀ c ∈ s, c ≠ p0) : reCaptures (p0 :: pr) s = none := by
  induction s with
  | nil => simp [reCaptures, matchCapture, dropLit]
  | cons c cs ih =>
    have hc : ¬ (p0 = c) := fun e => h c (List.mem_cons_self c cs) e.symm
    have hm : matchCapture (p0 :: pr) (c :: cs) = none := by
      simp [matchCapture, dropLit, hc]
    simp only [reCaptures, hm]
    exact ih fun d hd => h d (List.mem_cons_of_mem c hd)

theorem reCaptures_user_none (s : List Char) (h : ∀ c ∈ s, c ≠ 'u') :
    reCaptures "user:".toList s = none := by
  rw [show "user:".toList = 'u' :: "ser:".toList from rfl]
  exact reCaptures_none 'u' "ser:".toList s h

/-! ### Parsing and classification lemmas -/

theorem parseUsize_eq (ds : List Char) (hne : ds ≠ [])
    (hds : ∀ c ∈ ds, isDigitC c = true) (hval : digitsVal ds < USIZE) :
    parseUsize ds = some (digitsVal ds) := by
  have hall : ds.all isDigitC = true := List.all_eq_true.mpr hds
  simp [parseUsize, hne, hall, hval]

theorem tagFromStr_user (ws ds : List Char)
    (hws : ∀ c ∈ ws, isWs c = true) (hne : ds ≠ [])
    (hds : ∀ c ∈ ds, isDigitC c = true) (hval : digitsVal ds < USIZE) :
    tagFromStr ("user:".toList ++ ws ++ ds) = Except.ok (Tag.User (digitsVal ds)) := by
  have hcap : reCaptures "user:".toList ("user:".toList ++ ws ++ ds) = some ds :=
    reCaptures_of_matchCapture _ _ _ (matchCapture_eq _ ws ds hws hne hds)
  unfold tagFromStr
  simp only [hcap, parseUsize_eq ds hne hds hval]

theorem tagFromStr_article (ws ds : List Char)
    (hws : ∀ c ∈ ws, isWs c = true) (hne : ds ≠ [])
    (hds : ∀ c ∈ ds, isDigitC c = true) (hval : digitsVal ds < USIZE) :
    tagFromStr ("article:".toList ++ ws ++ ds) = Except.ok (Tag.Article (digitsVal ds)) := by
  have harticle : ∀ c ∈ "article:".toList, c ≠ 'u' := by decide
  have hu : reCaptures "user:".toList ("article:".toList ++ ws ++ ds) = none := by
    refine reCaptures_user_none _ fun c hc => ?_
    rcases List.mem_append.mp hc with hc' | hc'
    · rcases List.mem_append.mp hc' with hc'' | hc''
      · exact harticle c hc''
      · exact ws_ne_u c (hws c hc'')
    · exact digit_ne_u c (hds c hc')
  have hcap : reCaptures "article:".toList ("article:".toList ++ ws ++ ds) = some ds :=
    reCaptures_of_matchCapture _ _ _ (matchCapture_eq _ ws ds hws hne hds)
  unfold tagFromStr
  simp only [hu, hcap, parseUsize_eq ds hne hds hval]

/-! ### Lexer-step lemmas -/

theorem takeWhileNotRB_append (body rest : List Char) (h : ']' ∉ body) :
    takeWhileNotRB (body ++ ']' :: rest) = (body, rest) := by
  induction body with
  | nil => simp [takeWhileNotRB]
  | cons c cs ih =>
    have hc : ¬ (c = ']') := fun e => h (e ▸ List.mem_cons_self c cs)
    have ih' := ih fun hm => h (List.mem_cons_of_mem c hm)
    simp [takeWhileNotRB, hc, ih']

theorem takeWhileNotRB_no_rb (cs : List Char) (h : ']' ∉ cs) :
    takeWhileNotRB cs = (cs, []) := by
  induction cs with
  | nil => rfl
  | cons c t ih =>
    have hc : ¬ (c = ']') := fun e => h (e ▸ List.mem_cons_self c t)
    have ih' := ih fun hm => h (List.mem_cons_of_mem c hm)
    simp [takeWhileNotRB, hc, ih']

theorem lexList_nil (f l : Nat) : lexList f ⟨[], l⟩ = [] := by
  cases f <;> simp [lexList, lexNext]

theorem lexNext_bracket (body rest : List Char) (l : Nat) (h : ']' ∉ body) :
    lexNext ⟨'[' :: (body ++ ']' :: rest), l⟩ =
      some (tagItem l body, ⟨rest, l⟩) := by
  simp [lexNext, takeWhileNotRB_append body rest h]

theorem lexString_single_tag (body : List Char) (h : ']' ∉ body) :
    lexString ('[' :: (body ++ [']'])) = [tagItem 1 body] := by
  show lexList (('[' :: (body ++ [']'])).length) ⟨'[' :: (body ++ [']']), 1⟩ =
    [tagItem 1 body]
  have hlen : ('[' :: (body ++ [']'])).length = body.length + 1 + 1 := by
    simp
  rw [hlen]
  rw [show lexList (body.length + 1 + 1) ⟨'[' :: (body ++ ']' :: []), 1⟩ =
      match lexNext ⟨'[' :: (body ++ ']' :: []), 1⟩ with
      | none => []
      | some p => p.1 :: lexList (body.length + 1) p.2 from rfl]
  rw [lexNext_bracket body [] 1 h]
  simp [lexList_nil]

/-! ### Decimal rendering -/

theorem digChar_toNat (d : Nat) (h : d < 10) : (digChar d).toNat = 48 + d := by
  interval_cases d <;> decide

theorem digChar_digit (d : Nat) (h : d < 10) : isDigitC (digChar d) = true := by
  interval_cases d <;> decide

theorem foldl_digits (L : List Nat) (hL : ∀ d ∈ L, d < 10) (a : Nat) :
    List.foldl (fun a c => a * 10 + (c.toNat - 48)) a ((L.map digChar).reverse) =
      a * 10 ^ L.length + Nat.ofDigits 10 L := by
  induction L generalizing a with
  | nil => simp [Nat.ofDigits]
  | cons d T ih =>
    have hd : d < 10 := hL d (List.mem_cons_self d T)
    have hT : ∀ e ∈ T, e < 10 := fun e he => hL e (List.mem_cons_of_mem d he)
    simp only [List.map_cons, List.reverse_cons, List.foldl_append, List.foldl_cons,
      List.foldl_nil, ih hT a]
    rw [digChar_toNat d hd, Nat.ofDigits_cons, List.length_cons, pow_succ]
    have hsub : 48 + d - 48 = d := by omega
    rw [hsub]
    ring

theorem digitsVal_natToDecimal (n : Nat) : digitsVal (natToDecimal n) = n := by
  by_cases h : n = 0
  · subst h
    decide
  · have hlt : ∀ d ∈ Nat.digits 10 n, d < 10 := fun d hd =>
      Nat.digits_lt_base (by norm_num) hd
    simp only [natToDecimal, h, if_false, digitsVal]
    rw [foldl_digits (Nat.digits 10 n) hlt 0]
    simp [Nat.ofDigits_digits]

theorem natToDecimal_ne_nil (n : Nat) : natToDecimal n ≠ [] := by
  by_cases h : n = 0
  · subst h
    decide
  · simp only [natToDecimal, h, if_false]
    intro he
    rw [List.reverse_eq_nil_iff, List.map_eq_nil_iff] at he
    exact (Nat.digits_ne_nil_iff_ne_zero.mpr h) he

theorem natToDecimal_digits (n : Nat) : ∀ c ∈ natToDecimal n, isDigitC c = true := by
  by_cases h : n = 0
  · subst h
    decide
  · intro c hc
    simp only [natToDecimal, h, if_false, List.mem_reverse, List.mem_map] at hc
    obtain ⟨d, hd, rfl⟩ := hc
    exact digChar_digit d (Nat.digits_lt_base (by norm_num) hd)

/-! ### Line-counter lemmas -/

theorem step1_line (st : LexState) (h : st.line < 65536) :
    (step1 st).line =
      (if st.rest.head? = some '\n' then (st.line + 1) % 65536 else st.line) ∧
      (step1 st).line < 65536 := by
  obtain ⟨rest, line⟩ := st
  cases rest with
  | nil => simpa [step1, lexNext] using h
  | cons c cs =>
    by_cases hn : c = '\n'
    · subst hn
      constructor
      · simp [step1, lexNext, show ¬ (('\n' : Char) = '[') from by decide]
      · simp only [step1, lexNext, show ¬ (('\n' : Char) = '[') from by decide,
          if_false, if_true]
        exact Nat.mod_lt _ (by norm_num)
    · by_cases hb : c = '['
      · subst hb
        simp [step1, lexNext, show ¬ (('[' : Char) = '\n') from by decide, h]
      · simpa [step1, lexNext, hn, hb] using h

theorem lexNext_line (st : LexState) (i : Except TokenizeErr Token)
    (st' : LexState) (h : lexNext st = some (i, st')) (hl : st.line < 65536) :
    st'.line =
      (if st.rest.head? = some '\n' then (st.line + 1) % 65536 else st.line) ∧
      st'.line < 65536 := by
  have hs : step1 st = st' := by simp [step1, h]
  rw [← hs]
  exact step1_line st hl

theorem stepN_add (a b : Nat) (st : LexState) :
    stepN (a + b) st = stepN a (stepN b st) := by
  induction b generalizing st with
  | zero => rfl
  | succ b ih =>
    rw [show a + (b + 1) = (a + b) + 1 from rfl]
    show stepN (a + b) (step1 st) = stepN a (stepN b (step1 st))
    exact ih (step1 st)

theorem step2_block (rest : List Char) (l : Nat)
    (hrest : rest = [] ∨ ∃ r, rest = '[' :: r) :
    stepN 2 ⟨'[' :: 'x' :: ']' :: '\n' :: rest, l⟩ = ⟨rest, (l + 1) % 65536⟩ := by
  have h1 : step1 ⟨'[' :: 'x' :: ']' :: '\n' :: rest, l⟩ = ⟨'\n' :: rest, l⟩ := by
    simp [step1, lexNext, takeWhileNotRB,
      show ¬ (('[' : Char) = '\n') from by decide,
      show ¬ (('x' : Char) = ']') from by decide]
  have h2 : step1 ⟨'\n' :: rest, l⟩ = ⟨rest, (l + 1) % 65536⟩ := by
    rcases hrest with rfl | ⟨r, rfl⟩
    · simp [step1, lexNext, textRun, show ¬ (('\n' : Char) = '[') from by decide]
    · simp [step1, lexNext, textRun, show ¬ (('\n' : Char) = '[') from by decide]
  show step1 (step1 ⟨'[' :: 'x' :: ']' :: '\n' :: rest, l⟩) = ⟨rest, (l + 1) % 65536⟩
  rw [h1, h2]

theorem repBlock_shape (m : Nat) :
    repBlock m = [] ∨ ∃ r, repBlock m = '[' :: r := by
  cases m with
  | zero => exact Or.inl rfl
  | succ k => exact Or.inr ⟨'x' :: ']' :: '\n' :: repBlock k, rfl⟩

theorem stepN_blocks (j m l : Nat) (hl : l < 65536) :
    stepN (2 * j) ⟨repBlock (j + m), l⟩ = ⟨repBlock m, (l + j) % 65536⟩ := by
  induction j generalizing l with
  | zero =>
    simp only [Nat.mul_zero, stepN, Nat.zero_add, Nat.add_zero]
    rw [Nat.mod_eq_of_lt hl]
  | succ j ih =>
    have hs : 2 * (j + 1) = 2 * j + 2 := by ring
    have hrb : repBlock (j + 1 + m) = '[' :: 'x' :: ']' :: '\n' :: repBlock (j + m) := by
      rw [show j + 1 + m = (j + m) + 1 by omega]
      rfl
    rw [hs, stepN_add (2 * j) 2, hrb,
      step2_block (repBlock (j + m)) l (repBlock_shape (j + m)),
      ih ((l + 1) % 65536) (Nat.mod_lt _ (by norm_num))]
    have : ((l + 1) % 65536 + j) % 65536 = (l + (j + 1)) % 65536 := by omega
    rw [this]

/-! ### Panic-freedom of the text-run loop -/

theorem textRunChecked_eq (l : List Char) : textRunChecked l = some (textRun l) := by
  induction l with
  | nil => rfl
  | cons c cs ih =>
    by_cases hc : c = '['
    · subst hc
      simp [textRunChecked, textRun]
    · simp [textRunChecked, textRun, hc, iterNextOpt, ih]

/-! ### Non-empty text runs -/

theorem lexList_text_ne_nil (f : Nat) :
    ∀ (st : LexState) (t : List Char),
      Except.ok (Token.Text t) ∈ lexList f st → t ≠ [] := by
  induction f with
  | zero =>
    intro st t h
    simp [lexList] at h
  | succ f ih =>
    intro st t h
    obtain ⟨rest, line⟩ := st
    cases rest with
    | nil => simp [lexList, lexNext] at h
    | cons c cs =>
      by_cases hc : c = '['
      · subst hc
        simp only [lexList, lexNext, eq_self_iff_true, if_true,
          show ¬ (('[' : Char) = '\n') from by decide, if_false] at h
        rcases List.mem_cons.mp h with hh | hh
        · exfalso
          cases htag : tagFromStr (takeWhileNotRB cs).1 with
          | error e =>
            simp only [tagItem, htag] at hh
            simp at hh
          | ok tg =>
            simp only [tagItem, htag] at hh
            simp at hh
        · exact ih _ t hh
      · simp only [lexList, lexNext, hc, if_false] at h
        rcases List.mem_cons.mp h with hh | hh
        · simp only [Except.ok.injEq, Token.Text.injEq] at hh
          subst hh
          exact List.cons_ne_nil c (textRun cs).1
        · exact ih _ t hh

/-! ### The claims -/

/-- Claim C1, counterexample.  The claim says the line counter is bumped
once per newline consumed, wherever it occurs; but lexing `"a\n"` consumes
both characters in one call (the newline inside the text-run loop), and
the resulting state still has line 1, not 1 + 1. -/
theorem newline_in_text_run_not_counted :
    lexNext ⟨['a', '\n'], 1⟩ =
      some (Except.ok (Token.Text ['a', '\n']), ⟨[], 1⟩) ∧
    List.count '\n' ['a', '\n'] = 1 ∧ (1 : Nat) ≠ 1 + 1 :=
  ⟨by decide, by decide, by decide⟩

/-- Claim C1, amended.  After any sequence of calls to `next`, the line
equals the initial line plus the number of newlines consumed as the
*first* character of some call, reduced mod 2 ^ 16 (`u16` wrap); newlines
consumed inside a text-run continuation or inside a tag body are not
counted. -/
theorem line_counts_call_initial_newlines (n : Nat) (st : LexState)
    (h : st.line < 65536) :
    (stepN n st).line = (st.line + initNL n st) % 65536 := by
  induction n generalizing st with
  | zero =>
    simp only [stepN, initNL, Nat.add_zero]
    rw [Nat.mod_eq_of_lt h]
  | succ n ih =>
    obtain ⟨he, hlt⟩ := step1_line st h
    show (stepN n (step1 st)).line =
      (st.line + ((if st.rest.head? = some '\n' then 1 else 0) +
        initNL n (step1 st))) % 65536
    rw [ih (step1 st) hlt, he]
    by_cases hn : st.rest.head? = some '\n'
    · simp only [hn, if_pos]
      omega
    · simp only [hn, if_neg, if_false]
      omega

/-- Claim C1, witness for the amended statement at a concrete input. -/
theorem line_counts_call_initial_newlines_witness :
    (1 : Nat) < 65536 ∧
    (stepN 2 ⟨"\n\nx".toList, 1⟩).line =
      (1 + initNL 2 ⟨"\n\nx".toList, 1⟩) % 65536 :=
  ⟨by norm_num, line_counts_call_initial_newlines 2 ⟨"\n\nx".toList, 1⟩ (by norm_num)⟩

/-- Claim C2.  For every identifier value below 2 ^ 64, lexing
`"[user:N]"` yields exactly the one successful `User N` token, and
`"[article:N]"` the one `Article N` token. -/
theorem lex_user_article_numeric (N : Nat) (h : N < USIZE) :
    lexString ('[' :: ("user:".toList ++ natToDecimal N ++ [']'])) =
      [Except.ok (Token.Tag (Tag.User N))] ∧
    lexString ('[' :: ("article:".toList ++ natToDecimal N ++ [']'])) =
      [Except.ok (Token.Tag (Tag.Article N))] := by
  have hds := natToDecimal_digits N
  have hne := natToDecimal_ne_nil N
  have hval : digitsVal (natToDecimal N) < USIZE := by
    rw [digitsVal_natToDecimal]
    exact h
  have hws : ∀ c ∈ ([] : List Char), isWs c = true := fun c hc =>
    absurd hc (List.not_mem_nil c)
  have husr : ∀ c ∈ "user:".toList, ¬ (c = ']') := by decide
  have hart : ∀ c ∈ "article:".toList, ¬ (c = ']') := by decide
  constructor
  · have hnotrb : ']' ∉ "user:".toList ++ natToDecimal N := by
      intro hm
      rcases List.mem_append.mp hm with hm' | hm'
      · exact husr ']' hm' rfl
      · exact digit_ne_rb ']' (hds ']' hm') rfl
    rw [lexString_single_tag _ hnotrb]
    have htag : tagFromStr ("user:".toList ++ natToDecimal N) =
        Except.ok (Tag.User N) := by
      rw [show "user:".toList ++ natToDecimal N =
          "user:".toList ++ [] ++ natToDecimal N by simp]
      rw [tagFromStr_user [] (natToDecimal N) hws hne hds hval,
        digitsVal_natToDecimal]
    simp only [tagItem, htag]
  · have hnotrb : ']' ∉ "article:".toList ++ natToDecimal N := by
      intro hm
      rcases List.mem_append.mp hm with hm' | hm'
      · exact hart ']' hm' rfl
      · exact digit_ne_rb ']' (hds ']' hm') rfl
    rw [lexString_single_tag _ hnotrb]
    have htag : tagFromStr ("article:".toList ++ natToDecimal N) =
        Except.ok (Tag.Article N) := by
      rw [show "article:".toList ++ natToDecimal N =
          "article:".toList ++ [] ++ natToDecimal N by simp]
      rw [tagFromStr_article [] (natToDecimal N) hws hne hds hval,
        digitsVal_natToDecimal]
    simp only [tagItem, htag]

/-- Claim C2, witness at the concrete identifier 42. -/
theorem lex_user_article_numeric_witness :
    42 < USIZE ∧
    lexString ('[' :: ("user:".toList ++ natToDecimal 42 ++ [']'])) =
      [Except.ok (Token.Tag (Tag.User 42))] :=
  ⟨by norm_num [USIZE], (lex_user_article_numeric 42 (by norm_num [USIZE])).1⟩

/-- Claim C3, counterexample.  The `UnknownTag` payload for the body
`"unknown"` is the bracketed text `"[unknown]"`, not the body itself:
`from_str` brackets the body before storing it. -/
theorem unknown_payload_is_bracketed_cex :
    tagFromStr "unknown".toList =
      Except.error (TagParseErr.UnknownTag "[unknown]".toList) ∧
    "[unknown]".toList ≠ "unknown".toList :=
  ⟨by decide, by decide⟩

/-- Claim C3, amended.  When neither pattern matches, the `UnknownTag`
payload is the original body text wrapped in square brackets (the
bracketing is done by `from_str` itself, not left to the caller). -/
theorem unknown_payload_bracketed (s : List Char)
    (hu : reCaptures "user:".toList s = none)
    (ha : reCaptures "article:".toList s = none) :
    tagFromStr s = Except.error (TagParseErr.UnknownTag ('[' :: (s ++ [']']))) := by
  unfold tagFromStr
  simp only [hu, ha]

/-- Claim C3, witness for the amended statement at the body `"unknown"`. -/
theorem unknown_payload_bracketed_witness :
    reCaptures "user:".toList "unknown".toList = none ∧
    reCaptures "article:".toList "unknown".toList = none ∧
    tagFromStr "unknown".toList =
      Except.error (TagParseErr.UnknownTag ('[' :: ("unknown".toList ++ [']']))) :=
  ⟨by decide, by decide, unknown_payload_bracketed _ (by decide) (by decide)⟩

/-- Claim C4, counterexample.  The claim places the optional whitespace
between the kind word and the colon; but the body `"user :5"` fails to
classify: the pattern literal is `user:` with the whitespace after the
colon. -/
theorem ws_before_colon_rejected_cex :
    tagFromStr "user :5".toList =
      Except.error (TagParseErr.UnknownTag "[user :5]".toList) := by
  decide

/-- Claim C4, amended.  The user pattern accepts the literal `user`, then
a colon, then optional whitespace, then one or more digits; the article
pattern has the same shape.  Whitespace between the colon and the digits
is accepted (`"user: 5"`), whitespace between the kind word and the colon
is not (`"user :5"`, see the counterexample). -/
theorem pattern_colon_then_ws (ws ds : List Char)
    (hws : ∀ c ∈ ws, isWs c = true) (hne : ds ≠ [])
    (hds : ∀ c ∈ ds, isDigitC c = true) (hval : digitsVal ds < USIZE) :
    tagFromStr ("user:".toList ++ ws ++ ds) = Except.ok (Tag.User (digitsVal ds)) ∧
    tagFromStr ("article:".toList ++ ws ++ ds) =
      Except.ok (Tag.Article (digitsVal ds)) :=
  ⟨tagFromStr_user ws ds hws hne hds hval,
   tagFromStr_article ws ds hws hne hds hval⟩

/-- Claim C4, witness: a space after the colon is accepted for both
kinds. -/
theorem pattern_colon_then_ws_witness :
    tagFromStr "user: 5".toList = Except.ok (Tag.User 5) ∧
    tagFromStr "article: 5".toList = Except.ok (Tag.Article 5) := by
  have h := pattern_colon_then_ws [' '] ['5'] (by decide) (by decide)
    (by decide) (by decide)
  constructor
  · rw [show "user: 5".toList = "user:".toList ++ [' '] ++ ['5'] from rfl]
    exact h.1.trans (by decide)
  · rw [show "article: 5".toList = "article:".toList ++ [' '] ++ ['5'] from rfl]
    exact h.2.trans (by decide)

/-- Claim C5.  Lexing `"\n[unknown]"` yields exactly one error: position
line 2, kind `UnknownTag` with the bracketed payload `"[unknown]"`.  The
first conjunct gives the full item list (the error is preceded by the
text token `"\n"`); the second isolates the errors, of which there is
exactly the claimed one. -/
theorem lex_newline_unknown_error :
    lexString "\n[unknown]".toList =
      [Except.ok (Token.Text ['\n']),
       Except.error (TokenizeErr.TagErr ⟨2⟩
         (TagParseErr.UnknownTag "[unknown]".toList))] ∧
    errorsOf (lexString "\n[unknown]".toList) =
      [TokenizeErr.TagErr ⟨2⟩ (TagParseErr.UnknownTag "[unknown]".toList)] :=
  ⟨by decide, by decide⟩

/-- Claim C6, counterexample.  A body the user pattern matches whose digit
run overflows `usize` is not classified as `User`: the capture, twenty
digits with value 2 ^ 64, fails the integer parse and `from_str` returns
`CaptureParseErr`. -/
theorem user_capture_overflow_cex :
    reCaptures "user:".toList "user:18446744073709551616".toList =
      some "18446744073709551616".toList ∧
    tagFromStr "user:18446744073709551616".toList =
      Except.error TagParseErr.CaptureParseErr :=
  ⟨by decide, by decide⟩

/-- Claim C6, amended.  The user pattern is tried first with a
non-anchored search; whenever it matches anywhere in the body, the result
is determined by parsing the captured digit run — `User n` on success,
`CaptureParseErr` on overflow — and the article pattern is never
consulted. -/
theorem user_pattern_tried_first (s ds : List Char)
    (h : reCaptures "user:".toList s = some ds) :
    tagFromStr s =
      (match parseUsize ds with
       | some n => Except.ok (Tag.User n)
       | none => Except.error TagParseErr.CaptureParseErr) := by
  unfold tagFromStr
  simp only [h]

/-- Claim C6, witness: the body `"xxuser:5yy"` from the claim parses as
`User 5` through the non-anchored first-match rule. -/
theorem user_pattern_tried_first_witness :
    reCaptures "user:".toList "xxuser:5yy".toList = some ['5'] ∧
    tagFromStr "xxuser:5yy".toList = Except.ok (Tag.User 5) :=
  ⟨by decide,
   (user_pattern_tried_first "xxuser:5yy".toList ['5'] (by decide)).trans
     (by decide)⟩

/-- Claim C7.  When `[` is read and no `]` occurs before the end of
input, the whole remaining text becomes the body and is classified
normally; in particular `"[user:5"` lexes to the single successful token
`User 5` with no error for the missing bracket. -/
theorem unterminated_tag_classified (cs : List Char) (l : Nat) (h : ']' ∉ cs) :
    lexNext ⟨'[' :: cs, l⟩ = some (tagItem l cs, ⟨[], l⟩) ∧
    lexString "[user:5".toList = [Except.ok (Token.Tag (Tag.User 5))] := by
  constructor
  · simp [lexNext, takeWhileNotRB_no_rb cs h,
      show ¬ (('[' : Char) = '\n') from by decide]
  · decide

/-- Claim C7, witness at the unterminated input `"[user:5"`. -/
theorem unterminated_tag_classified_witness :
    lexNext ⟨'[' :: "user:5".toList, 1⟩ =
      some (Except.ok (Token.Tag (Tag.User 5)), ⟨[], 1⟩) ∧
    lexString "[user:5".toList = [Except.ok (Token.Tag (Tag.User 5))] := by
  have h := unterminated_tag_classified "user:5".toList 1 (by decide)
  exact ⟨h.1.trans (by decide), h.2⟩

/-- Claim C8.  Every call to `next` returns normally: running `next` with
the `unwrap` of the text-run loop modelled as a possible abort never
reaches the aborting branch, because the loop only calls the iterator
after a successful peek. -/
theorem lexNext_never_aborts (st : LexState) :
    lexNextChecked st = some (lexNext st) := by
  obtain ⟨rest, line⟩ := st
  cases rest with
  | nil => rfl
  | cons c cs =>
    by_cases hc : c = '['
    · subst hc
      rfl
    · simp [lexNextChecked, lexNext, hc, textRunChecked_eq]

/-- Claim C9, counterexample.  The line field is a `u16`: after 65534
blocks of an unknown tag followed by a newline the line is 65535, and two
calls later (one more call-initial newline) it has wrapped to 0 — the
line number decreased within one lexer run. -/
theorem line_wraps_at_u16_max :
    (stepN 131068 ⟨repBlock 65535, 1⟩).line = 65535 ∧
    (stepN 131070 ⟨repBlock 65535, 1⟩).line = 0 ∧
    (stepN 131070 ⟨repBlock 65535, 1⟩).line <
      (stepN 131068 ⟨repBlock 65535, 1⟩).line := by
  have h1 := stepN_blocks 65534 1 1 (by norm_num)
  have h2 := stepN_blocks 65535 0 1 (by norm_num)
  norm_num at h1 h2
  rw [h1, h2]
  norm_num

/-- Claim C9, amended.  Across one call to `next` the line never
decreases, except at the `u16` wrap: from a reachable line value (below
2 ^ 16) the successor line is at least the old one, or the old line was
65535 and the counter wrapped to 0. -/
theorem line_monotone_below_wrap (st : LexState)
    (i : Except TokenizeErr Token) (st' : LexState)
    (h : lexNext st = some (i, st')) (hl : st.line < 65536) :
    st.line ≤ st'.line ∨ (st.line = 65535 ∧ st'.line = 0) := by
  obtain ⟨he, _⟩ := lexNext_line st i st' h hl
  by_cases hn : st.rest.head? = some '\n'
  · rw [if_pos hn] at he
    omega
  · rw [if_neg hn] at he
    omega

/-- Claim C9, witness: one call on `"\n"` from line 1 moves to line 2. -/
theorem line_monotone_below_wrap_witness :
    lexNext ⟨['\n'], 1⟩ = some (Except.ok (Token.Text ['\n']), ⟨[], 2⟩) ∧
    (1 : Nat) < 65536 ∧
    ((1 : Nat) ≤ (2 : Nat) ∨ ((1 : Nat) = 65535 ∧ (2 : Nat) = 0)) := by
  refine ⟨by decide, by norm_num, ?_⟩
  exact line_monotone_below_wrap ⟨['\n'], 1⟩
    (Except.ok (Token.Text ['\n'])) ⟨[], 2⟩ (by decide) (by norm_num)

/-- Claim C10.  Every `Text` token the lexer emits over a whole run holds
a non-empty character run. -/
theorem text_tokens_nonempty (s t : List Char)
    (h : Except.ok (Token.Text t) ∈ lexString s) : t ≠ [] :=
  lexList_text_ne_nil s.length ⟨s, 1⟩ t h

/-- Claim C10, witness: the input `"a"` emits the text token `"a"`, which
is non-empty. -/
theorem text_tokens_nonempty_witness :
    Except.ok (Token.Text ['a']) ∈ lexString ['a'] ∧ (['a'] : List Char) ≠ [] :=
  ⟨by decide, text_tokens_nonempty ['a'] ['a'] (by decide)⟩

end Papyrus
